import Mathlib

/-!
Verification of the `sachy` board-primitive library: the `Square`
coordinate type (src/square.rs) and the `Bitboard` 64-bit set type
(src/bitboard.rs), shallowly embedded over `Nat`.

Machine integers are modelled as `Nat`: `u8` values stay below 256 and
`u64` values below 2^64; no arithmetic here can overflow those ranges
(each site is noted), so no explicit `% 2^w` is required.
-/

/-- Error type of `Square` construction, from `SquareError` in src/square.rs. -/
inductive SquareError where
  | XYOutOfBounds
  | IndexOutOfBounds
  | InvalidString
deriving DecidableEq, Repr

/-- A square on the chess board, from `struct Square` in src/square.rs:
a single `u8` value with the x coordinate in the upper 4 bits and the
y coordinate in the lower 4 bits. -/
structure Square where
  val : Nat
deriving DecidableEq, Repr

/-- Models `Square::x`: `self.val >> 4`. -/
def Square.x (sq : Square) : Nat := sq.val >>> 4

/-- Models `Square::y`: `self.val & 0b0000_1111`. -/
def Square.y (sq : Square) : Nat := sq.val &&& 15

/-- Models `Square::index`: `self.y() * 8 + self.x()` (for a `u8` value
this is at most 15*8+15 = 135 < 256, so no overflow). -/
def Square.index (sq : Square) : Nat := sq.y * 8 + sq.x

/-- Models `Square::new`: bounds-check then pack `(x << 4) | y`. -/
def Square.new (x y : Nat) : Except SquareError Square :=
  if x < 8 ∧ y < 8 then
    Except.ok ⟨(x <<< 4) ||| y⟩
  else
    Except.error SquareError.XYOutOfBounds

/-- Models `Square::from_index`: bounds-check then delegate to
`Square::new(index % 8, index / 8)`. -/
def Square.from_index (index : Nat) : Except SquareError Square :=
  if index < 64 then
    Square.new (index % 8) (index / 8)
  else
    Except.error SquareError.IndexOutOfBounds

/-- UTF-8 byte size of a character, as used by Rust `str::len` which
counts bytes, not characters. -/
def charUtf8Size (c : Char) : Nat :=
  if c.toNat < 128 then 1
  else if c.toNat < 2048 then 2
  else if c.toNat < 65536 then 3
  else 4

/-- Byte length of a string (Rust `str::len`), over its character list. -/
def byteLen (s : List Char) : Nat := (s.map charUtf8Size).sum

/-- Models Rust `char::to_ascii_lowercase`: maps ASCII uppercase letters
to lowercase, leaves every other character unchanged. -/
def toAsciiLowercase (c : Char) : Char :=
  if 'A' ≤ c ∧ c ≤ 'Z' then Char.ofNat (c.toNat + 32) else c

/-- Models Rust `char::is_ascii_digit`. -/
def isAsciiDigit (c : Char) : Bool := '0' ≤ c && c ≤ '9'

/-- Models Rust `char::to_digit(10)`. -/
def toDigit10 (c : Char) : Option Nat :=
  if '0' ≤ c ∧ c ≤ '9' then some (c.toNat - 48) else none

/-- Models `Square::from_string`. The source checks the byte length,
then reads the file character with `chars.nth(0)` and the rank character
with `chars.nth(1)`. Rust iterator `nth` consumes the elements it skips,
so after `nth(0)` has consumed the first character, `nth(1)` skips one
more character and yields the character at original position 2 (`s.get? 2`
here); `None` is converted to `InvalidString` by `ok_or`. The remaining
checks and conversions follow the source line by line. -/
def Square.from_string (s : List Char) : Except SquareError Square :=
  if byteLen s ≠ 2 then Except.error SquareError.InvalidString
  else
    match s.get? 0 with
    | Option.none => Except.error SquareError.InvalidString
    | Option.some c0 =>
      let file := toAsciiLowercase c0
      match s.get? 2 with
      | Option.none => Except.error SquareError.InvalidString
      | Option.some rank =>
        if file < 'a' ∨ 'h' < file then Except.error SquareError.InvalidString
        else if ¬ isAsciiDigit rank ∨ rank < '1' ∨ '8' < rank then
          Except.error SquareError.InvalidString
        else
          match toDigit10 rank with
          | Option.none => Except.error SquareError.InvalidString
          | Option.some d => Square.new (file.toNat - 97) (d - 1)

/-- Models `impl fmt::Display for Square`: the two characters
`(self.x() + 'a' as u8) as char` and `(self.y() + '1' as u8) as char`. -/
def Square.toChars (sq : Square) : List Char :=
  [Char.ofNat (sq.x + 97), Char.ofNat (sq.y + 49)]

/-- Validity of a `Square` value: both packed nibbles in [0,7]. This is
exactly the set of values the public constructors (`new`, `from_index`,
`from_string`) can produce, since each goes through the bounds check of
`Square::new`. -/
def Square.valid (sq : Square) : Prop := sq.x < 8 ∧ sq.y < 8

instance Square.validDecidable (sq : Square) : Decidable sq.valid :=
  inferInstanceAs (Decidable (sq.x < 8 ∧ sq.y < 8))

/-- Modelled from the spec: `Square::is_ok` is called by
`TryFrom<Square> for Bitboard` in src/bitboard.rs but is defined nowhere
under src/. The spec (section 9, open question) explains that the guard
checks square validity and that every `Square` produced by the public
constructors is already validated, making the guard redundant; `is_ok`
is therefore the validity predicate on the packed value. -/
def Square.is_ok (sq : Square) : Bool := decide sq.valid

/-- Error kinds of the `Bitboard` conversions. The source uses
`&'static str` messages; these constructors stand for those messages:
`squareNotOk` for the message of `TryFrom<Square>` and `notSingleton`
for the message of `TryInto<Square>` (the spec's `NotSingleton` kind). -/
inductive BitboardError where
  | squareNotOk
  | notSingleton
deriving DecidableEq, Repr

/-- A 64-bit set of squares, from `struct Bitboard` in src/bitboard.rs:
a single `u64`, bit `i` set iff the square with linear index `i` is a
member. -/
structure Bitboard where
  bits : Nat
deriving DecidableEq, Repr

/-- Models `Bitboard::new`: the empty set (all bits zero). -/
def Bitboard.new : Bitboard := ⟨0⟩

/-- Models `impl From<u64> for Bitboard`: wrap the raw bit pattern. -/
def Bitboard.fromU64 (bits : Nat) : Bitboard := ⟨bits⟩

/-- Models `Bitboard::get`: `self.bits & (1 << sq.index()) != 0`.
For a valid square `sq.index() < 64`, so the shift is in range for `u64`. -/
def Bitboard.get (b : Bitboard) (sq : Square) : Bool :=
  b.bits &&& (1 <<< sq.index) != 0

/-- Models `Bitboard::set`: record the prior membership, or the bit in,
and return the new state together with the prior value (the in-place
mutation is modelled by explicit state passing). For a valid square the
or-ed bit is below 2^64, so the `u64` cannot overflow. -/
def Bitboard.set (b : Bitboard) (sq : Square) : Bitboard × Bool :=
  let old := b.get sq
  (⟨b.bits ||| (1 <<< sq.index)⟩, old)

/-- Models `Bitboard::clear`: `self.bits &= !(1 << sq.index())`; the
`u64` complement of the single bit is `(2^64 - 1) ^^^ (1 <<< index)`. -/
def Bitboard.clear (b : Bitboard) (sq : Square) : Bitboard × Bool :=
  let old := b.get sq
  (⟨b.bits &&& ((2 ^ 64 - 1) ^^^ (1 <<< sq.index))⟩, old)

/-- Models `Bitboard::put`: delegate to `set` or `clear` on `value`. -/
def Bitboard.put (b : Bitboard) (sq : Square) (value : Bool) : Bitboard :=
  if value then (b.set sq).1 else (b.clear sq).1

/-- Fuel-bounded binary population count; 64 units of fuel suffice for
any `u64` value. -/
def popcountAux : Nat → Nat → Nat
  | 0, _ => 0
  | fuel + 1, n => if n = 0 then 0 else n % 2 + popcountAux fuel (n / 2)

/-- Models `u64::count_ones`: number of set bits of a 64-bit value. -/
def popcount (n : Nat) : Nat := popcountAux 64 n

/-- Fuel-bounded count of trailing zero bits of a positive number. -/
def tzAux : Nat → Nat → Nat
  | 0, _ => 0
  | fuel + 1, n => if n % 2 = 1 then 0 else tzAux fuel (n / 2) + 1

/-- Models `u64::trailing_zeros`: 64 for the value 0, otherwise the
number of trailing zero bits. -/
def trailingZeros (n : Nat) : Nat := if n = 0 then 64 else tzAux 64 n

/-- Models `Bitboard::count`: `self.bits.count_ones()`. -/
def Bitboard.count (b : Bitboard) : Nat := popcount b.bits

/-- Models `Bitboard::any`: `self.bits != 0`. -/
def Bitboard.any (b : Bitboard) : Bool := b.bits != 0

/-- Models `Bitboard::none`: `self.bits == 0`. -/
def Bitboard.none (b : Bitboard) : Bool := b.bits == 0

/-- Models `impl TryFrom<Square> for Bitboard`: guard on `sq.is_ok()`,
then build the singleton `1 << sq.index()`. -/
def Bitboard.tryFromSquare (sq : Square) : Except BitboardError Bitboard :=
  if sq.is_ok then Except.ok ⟨1 <<< sq.index⟩
  else Except.error BitboardError.squareNotOk

/-- Models `impl TryInto<Square> for Bitboard`: when exactly one bit is
set, return the square at index `trailing_zeros`; otherwise fail. The
inner error branch is unreachable (`count == 1` forces the trailing-zero
index below 64, where `from_index` succeeds); it is mapped to the same
`notSingleton` error so the model stays total. -/
def Bitboard.tryIntoSquare (b : Bitboard) : Except BitboardError Square :=
  if b.count = 1 then
    match Square.from_index (trailingZeros b.bits) with
    | Except.ok sq => Except.ok sq
    | Except.error _ => Except.error BitboardError.notSingleton
  else Except.error BitboardError.notSingleton

/-- Models the loop body of `impl fmt::Display for Bitboard`: for each
`i` in 0..64 push `'1'` when bit `i` is set, else `'0'`, then push a
newline after each eighth bit and a space otherwise. -/
def Bitboard.displayChars (b : Bitboard) : List Char :=
  (List.range 64).foldl
    (fun s i =>
      (s ++ [if b.bits &&& (1 <<< i) != 0 then '1' else '0']) ++
        [if i % 8 == 7 then '\n' else ' '])
    []

/-- The list of all 64 valid squares, obtained through the public
constructor `Square::from_index`. -/
def allSquares : List Square :=
  (List.range 64).filterMap (fun i => (Square.from_index i).toOption)

/-- The square value that `Square::new(i % 8, i / 8)` packs for an
in-range index `i`; used to name `from_index` results explicitly. -/
def squareOfIdx (i : Nat) : Square := ⟨((i % 8) <<< 4) ||| (i / 8)⟩

/-! Shared helper lemmas. -/

theorem one_shiftLeft_eq_pow (i : Nat) : (1 : Nat) <<< i = 2 ^ i :=
  Nat.one_shiftLeft i

theorem and_shift_bne (n i : Nat) :
    ((n &&& (1 <<< i)) != 0) = n.testBit i := by
  rw [one_shiftLeft_eq_pow, Nat.and_two_pow]
  cases h : n.testBit i <;> simp [Nat.pos_iff_ne_zero, Nat.pow_pos]

theorem Bitboard.get_eq_testBit (b : Bitboard) (sq : Square) :
    b.get sq = b.bits.testBit sq.index :=
  and_shift_bne b.bits sq.index

theorem Square.valid_val_lt {sq : Square} (h : sq.valid) : sq.val < 128 := by
  obtain ⟨hx, _⟩ := h
  unfold Square.x at hx
  rw [Nat.shiftRight_eq_div_pow] at hx
  omega

theorem square_pack_facts :
    ∀ x, x < 8 → ∀ y, y < 8 →
      (Square.mk ((x <<< 4) ||| y)).x = x ∧
      (Square.mk ((x <<< 4) ||| y)).y = y ∧
      (Square.mk ((x <<< 4) ||| y)).valid ∧
      (Square.mk ((x <<< 4) ||| y)).index = y * 8 + x := by
  decide

deriving instance DecidableEq for Except

set_option maxRecDepth 40000 in
theorem square_index_inj_val :
    ∀ v1, v1 < 128 → ∀ v2, v2 < 128 →
      (Square.mk v1).valid → (Square.mk v2).valid →
      (Square.mk v1).index = (Square.mk v2).index → v1 = v2 := by
  decide

theorem Square.index_injective {sq sq' : Square}
    (h : sq.valid) (h' : sq'.valid) (he : sq.index = sq'.index) : sq = sq' := by
  obtain ⟨v⟩ := sq
  obtain ⟨v'⟩ := sq'
  have := square_index_inj_val v (Square.valid_val_lt h) v' (Square.valid_val_lt h') h h' he
  simp [this]

theorem Square.valid_index_lt {sq : Square} (h : sq.valid) : sq.index < 64 := by
  obtain ⟨hx, hy⟩ := h
  unfold Square.index
  omega

theorem from_index_eq_squareOfIdx :
    ∀ i, i < 64 → Square.from_index i = Except.ok (squareOfIdx i) := by
  decide

theorem squareOfIdx_facts :
    ∀ i, i < 64 →
      (squareOfIdx i).index = i ∧ (squareOfIdx i).valid ∧
      (squareOfIdx i).x = i % 8 ∧ (squareOfIdx i).y = i / 8 := by
  decide

set_option maxRecDepth 40000 in
theorem from_index_index_of_valid :
    ∀ v, v < 128 → (Square.mk v).valid →
      Square.from_index (Square.mk v).index = Except.ok (Square.mk v) := by
  decide

theorem popcountAux_zero : ∀ fuel, popcountAux fuel 0 = 0 := by
  intro fuel
  cases fuel <;> simp [popcountAux]

theorem popcountAux_eq_zero :
    ∀ fuel n, n < 2 ^ fuel → (popcountAux fuel n = 0 ↔ n = 0) := by
  intro fuel
  induction fuel with
  | zero => intro n hn; interval_cases n; simp [popcountAux]
  | succ f ih =>
    intro n hn
    by_cases h0 : n = 0
    · simp [popcountAux, h0]
    · have hdiv : n / 2 < 2 ^ f := by
        rw [pow_succ] at hn; omega
      have := ih (n / 2) hdiv
      simp only [popcountAux, if_neg h0]
      constructor
      · intro h
        have h2 : n % 2 = 0 := by omega
        have h3 : popcountAux f (n / 2) = 0 := by omega
        have := this.mp h3
        omega
      · intro h; exact absurd h h0

theorem popcountAux_eq_one :
    ∀ fuel n, n < 2 ^ fuel → popcountAux fuel n = 1 →
      n = 2 ^ tzAux fuel n ∧ tzAux fuel n < fuel := by
  intro fuel
  induction fuel with
  | zero => intro n hn h1; interval_cases n; simp [popcountAux] at h1
  | succ f ih =>
    intro n hn h1
    by_cases h0 : n = 0
    · simp [popcountAux, h0] at h1
    · simp only [popcountAux, if_neg h0] at h1
      have hdiv : n / 2 < 2 ^ f := by rw [pow_succ] at hn; omega
      by_cases hodd : n % 2 = 1
      · have hz : popcountAux f (n / 2) = 0 := by omega
        have : n / 2 = 0 := (popcountAux_eq_zero f (n / 2) hdiv).mp hz
        have hn1 : n = 1 := by omega
        subst hn1
        simp [tzAux]
      · have hpc : popcountAux f (n / 2) = 1 := by omega
        obtain ⟨he, hlt⟩ := ih (n / 2) hdiv hpc
        have hne : ¬ (n % 2 = 1) := hodd
        constructor
        · simp only [tzAux, if_neg hne]
          rw [pow_succ]
          omega
        · simp only [tzAux, if_neg hne]
          omega

theorem popcountAux_two_pow :
    ∀ fuel k, k < fuel → popcountAux fuel (2 ^ k) = 1 := by
  intro fuel
  induction fuel with
  | zero => intro k hk; omega
  | succ f ih =>
    intro k hk
    cases k with
    | zero => simp [popcountAux, popcountAux_zero]
    | succ j =>
      have hne : (2 : Nat) ^ (j + 1) ≠ 0 := by positivity
      simp only [popcountAux, if_neg hne]
      have hmod : 2 ^ (j + 1) % 2 = 0 := by
        rw [pow_succ]; omega
      have hdiv : 2 ^ (j + 1) / 2 = 2 ^ j := by
        rw [pow_succ]; omega
      rw [hmod, hdiv, ih j (by omega)]

theorem popcountAux_eq_countP :
    ∀ fuel n, n < 2 ^ fuel →
      popcountAux fuel n = (List.range fuel).countP (fun i => n.testBit i) := by
  intro fuel
  induction fuel with
  | zero => intro n hn; interval_cases n; simp [popcountAux]
  | succ f ih =>
    intro n hn
    have hdiv : n / 2 < 2 ^ f := by rw [pow_succ] at hn; omega
    rw [List.range_succ_eq_map, List.countP_cons, List.countP_map]
    have hcomp :
        ((fun i => n.testBit i) ∘ Nat.succ) = fun i => (n / 2).testBit i := by
      funext i
      simp [Function.comp, Nat.testBit_div_two]
    rw [hcomp, ← ih (n / 2) hdiv]
    by_cases h0 : n = 0
    · subst h0
      simp [popcountAux, popcountAux_eq_zero f 0 (by positivity) |>.mpr rfl,
        Nat.zero_testBit]
    · simp only [popcountAux, if_neg h0, Nat.testBit_zero]
      by_cases hodd : n % 2 = 1
      · simp [hodd]; omega
      · have : n % 2 = 0 := by omega
        simp [this]

theorem popcount_eq_countP {n : Nat} (hn : n < 2 ^ 64) :
    popcount n = (List.range 64).countP (fun i => n.testBit i) :=
  popcountAux_eq_countP 64 n hn

theorem popcount_eq_zero {n : Nat} (hn : n < 2 ^ 64) :
    popcount n = 0 ↔ n = 0 :=
  popcountAux_eq_zero 64 n hn

theorem popcount_two_pow {k : Nat} (hk : k < 64) : popcount (2 ^ k) = 1 :=
  popcountAux_two_pow 64 k hk

theorem popcount_eq_one {n : Nat} (hn : n < 2 ^ 64) (h1 : popcount n = 1) :
    n = 2 ^ trailingZeros n ∧ trailingZeros n < 64 := by
  have hne : n ≠ 0 := by
    intro h; subst h; simp [popcount, popcountAux] at h1
  obtain ⟨he, hlt⟩ := popcountAux_eq_one 64 n hn h1
  unfold trailingZeros
  rw [if_neg hne]
  exact ⟨he, hlt⟩

theorem trailingZeros_two_pow {k : Nat} (hk : k < 64) :
    trailingZeros (2 ^ k) = k := by
  have h1 : popcount (2 ^ k) = 1 := popcount_two_pow hk
  have hn : (2 : Nat) ^ k < 2 ^ 64 := Nat.pow_lt_pow_right (by omega) hk
  obtain ⟨he, _⟩ := popcount_eq_one hn h1
  exact (Nat.pow_right_injective (by omega) he.symm)

set_option maxRecDepth 40000 in
theorem allSquares_eq_map : allSquares = (List.range 64).map squareOfIdx := by
  decide

theorem countP_allSquares (b : Bitboard) :
    allSquares.countP (fun sq => b.get sq) =
      (List.range 64).countP (fun i => b.bits.testBit i) := by
  rw [allSquares_eq_map, List.countP_map]
  apply List.countP_congr
  intro i hi
  have hi64 : i < 64 := List.mem_range.mp hi
  have hfacts := squareOfIdx_facts i hi64
  simp only [Function.comp_apply]
  rw [Bitboard.get_eq_testBit, hfacts.1]

theorem foldl_push_pairs (f g : Nat → Char) :
    ∀ (l : List Nat) (acc : List Char),
      l.foldl (fun s i => (s ++ [f i]) ++ [g i]) acc =
        acc ++ l.flatMap (fun i => [f i, g i]) := by
  intro l
  induction l with
  | nil => intro acc; simp
  | cons a t ih =>
    intro acc
    rw [List.foldl_cons, ih]
    simp [List.append_assoc]

theorem countP_flatMap_pairs (p : Char → Bool) (d s : Nat → Char)
    (hd : ∀ i, p (d i) = true) (hs : ∀ i, p (s i) = false) :
    ∀ l : List Nat, (l.flatMap (fun i => [d i, s i])).countP p = l.length := by
  intro l
  induction l with
  | nil => simp
  | cons a t ih =>
    simp [List.countP_cons, List.countP_append, hd, hs, ih]

/-! Claim theorems. -/

/-- C1: the claim says `Square::from_string` succeeds on every 2-character
input `[a-hA-H][1-8]`; on the code it does not: for the input "a1" the
rank character is requested with `chars.nth(1)` after `nth(0)` already
consumed the file character, which runs past the end of the 2-character
string, so the function returns `InvalidString` instead of the square
with x = 0, y = 0. This evaluates the code at that failing input. -/
theorem from_string_rejects_a1 :
    Square.from_string ['a', '1'] = Except.error SquareError.InvalidString := by
  decide

/-- C2: the claim says the display string of every valid square parses
back to an equal square. The display half holds (the square with packed
value 0 displays as "a1", lower-case file letter then rank digit), but
`from_string` rejects that very string because of the `nth(1)` slip, so
the text round-trip fails at the square "a1". -/
theorem display_roundtrip_fails_at_a1 :
    Square.toChars ⟨0⟩ = ['a', '1'] ∧
    Square.from_string (Square.toChars ⟨0⟩) =
      Except.error SquareError.InvalidString := by
  decide

/-- C6: `Square::new` succeeds for x, y in [0,7] with accessors returning
the inputs, and fails with the out-of-bounds kind (`XYOutOfBounds`) for
every other pair of byte inputs. -/
theorem square_new_contract :
    ∀ x y : Nat, x < 256 → y < 256 →
      ((x < 8 ∧ y < 8) →
        ∃ sq, Square.new x y = Except.ok sq ∧ sq.x = x ∧ sq.y = y) ∧
      ((8 ≤ x ∨ 8 ≤ y) →
        Square.new x y = Except.error SquareError.XYOutOfBounds) := by
  intro x y _ _
  constructor
  · rintro ⟨h1, h2⟩
    obtain ⟨hx, hy, _, _⟩ := square_pack_facts x h1 y h2
    refine ⟨⟨(x <<< 4) ||| y⟩, ?_, hx, hy⟩
    simp [Square.new, h1, h2]
  · intro h
    unfold Square.new
    rw [if_neg (by omega)]

/-- C6 witness: instances at (3,5) and (8,0). -/
theorem square_new_contract_witness :
    (∃ sq, Square.new 3 5 = Except.ok sq ∧ sq.x = 3 ∧ sq.y = 5) ∧
    Square.new 8 0 = Except.error SquareError.XYOutOfBounds :=
  ⟨(square_new_contract 3 5 (by decide) (by decide)).1 (by decide),
   (square_new_contract 8 0 (by decide) (by decide)).2 (by decide)⟩

/-- C7: `Square::from_index` succeeds for idx in [0,63] with
x = idx % 8, y = idx / 8 and index round-tripping, and fails with the
out-of-bounds kind (`IndexOutOfBounds`) for every other byte input. -/
theorem square_from_index_contract :
    ∀ idx : Nat, idx < 256 →
      ((idx < 64) →
        ∃ sq, Square.from_index idx = Except.ok sq ∧
          sq.x = idx % 8 ∧ sq.y = idx / 8 ∧ sq.index = idx) ∧
      ((64 ≤ idx) →
        Square.from_index idx = Except.error SquareError.IndexOutOfBounds) := by
  intro idx _
  constructor
  · intro h
    obtain ⟨hi, _, hx, hy⟩ := squareOfIdx_facts idx h
    exact ⟨squareOfIdx idx, from_index_eq_squareOfIdx idx h, hx, hy, hi⟩
  · intro h
    unfold Square.from_index
    rw [if_neg (by omega)]

/-- C7 witness: instances at 29 and 200. -/
theorem square_from_index_contract_witness :
    (∃ sq, Square.from_index 29 = Except.ok sq ∧
      sq.x = 29 % 8 ∧ sq.y = 29 / 8 ∧ sq.index = 29) ∧
    Square.from_index 200 = Except.error SquareError.IndexOutOfBounds :=
  ⟨(square_from_index_contract 29 (by decide)).1 (by decide),
   (square_from_index_contract 200 (by decide)).2 (by decide)⟩

/-- C10: for every index below 64 the inner `Square::new` call of
`Square::from_index` never takes its error branch, so `from_index`
succeeds there; and on no input at all does `from_index` return the
coordinate kind `XYOutOfBounds` — its only error is `IndexOutOfBounds`. -/
theorem from_index_never_xy_out_of_bounds :
    ∀ idx : Nat,
      ((idx < 64) → ∃ sq, Square.from_index idx = Except.ok sq) ∧
      Square.from_index idx ≠ Except.error SquareError.XYOutOfBounds := by
  intro idx
  by_cases h : idx < 64
  · refine ⟨fun _ => ⟨squareOfIdx idx, from_index_eq_squareOfIdx idx h⟩, ?_⟩
    rw [from_index_eq_squareOfIdx idx h]
    simp
  · refine ⟨fun hlt => absurd hlt h, ?_⟩
    unfold Square.from_index
    rw [if_neg h]
    simp

/-- C10 witness: instance at 29. -/
theorem from_index_never_xy_out_of_bounds_witness :
    (∃ sq, Square.from_index 29 = Except.ok sq) ∧
    Square.from_index 29 ≠ Except.error SquareError.XYOutOfBounds :=
  ⟨(from_index_never_xy_out_of_bounds 29).1 (by decide),
   (from_index_never_xy_out_of_bounds 29).2⟩

/-- C3: on a fresh bitboard every membership test is false; setting a
valid square makes its membership true, returns the pre-mutation
membership, and leaves the membership of every other valid square
unchanged. -/
theorem bitboard_new_get_set_frame :
    (∀ sq : Square, Bitboard.new.get sq = false) ∧
    ∀ (b : Bitboard) (sq : Square), sq.valid →
      (b.set sq).1.get sq = true ∧
      (b.set sq).2 = b.get sq ∧
      ∀ sq' : Square, sq'.valid → sq' ≠ sq →
        (b.set sq).1.get sq' = b.get sq' := by
  constructor
  · intro sq
    rw [Bitboard.get_eq_testBit]
    exact Nat.zero_testBit sq.index
  · intro b sq _
    refine ⟨?_, rfl, ?_⟩
    · rw [Bitboard.get_eq_testBit]
      show (b.bits ||| (1 <<< sq.index)).testBit sq.index = true
      rw [one_shiftLeft_eq_pow, Nat.testBit_or, Nat.testBit_two_pow_self]
      simp
    · intro sq' hv' hne
      rw [Bitboard.get_eq_testBit, Bitboard.get_eq_testBit]
      show (b.bits ||| (1 <<< sq.index)).testBit sq'.index = _
      have hidx : sq.index ≠ sq'.index := by
        intro h
        exact hne (Square.index_injective hv' ‹sq.valid› h.symm)
      rw [one_shiftLeft_eq_pow, Nat.testBit_or,
        Nat.testBit_two_pow_of_ne hidx]
      simp

/-- C3 witness: a board with raw bits 5; set the square x=1, y=0
(packed value 0x10, linear index 1), observe the square x=2, y=3
(packed value 0x23, linear index 26) unchanged. -/
theorem bitboard_new_get_set_frame_witness :
    Bitboard.new.get ⟨0x23⟩ = false ∧
    ((Bitboard.mk 5).set ⟨0x10⟩).1.get ⟨0x10⟩ = true ∧
    ((Bitboard.mk 5).set ⟨0x10⟩).2 = (Bitboard.mk 5).get ⟨0x10⟩ ∧
    ((Bitboard.mk 5).set ⟨0x10⟩).1.get ⟨0x23⟩ = (Bitboard.mk 5).get ⟨0x23⟩ :=
  ⟨bitboard_new_get_set_frame.1 ⟨0x23⟩,
   (bitboard_new_get_set_frame.2 ⟨5⟩ ⟨0x10⟩ (by decide)).1,
   (bitboard_new_get_set_frame.2 ⟨5⟩ ⟨0x10⟩ (by decide)).2.1,
   (bitboard_new_get_set_frame.2 ⟨5⟩ ⟨0x10⟩ (by decide)).2.2 ⟨0x23⟩
     (by decide) (by decide)⟩

/-- C5: converting any valid square to a bitboard always succeeds and
yields the singleton set at the square's linear index: membership of
the square itself is true, the population count is 1, and membership of
every other valid square is false. -/
theorem square_to_bitboard_infallible :
    ∀ sq : Square, sq.valid →
      ∃ b : Bitboard, Bitboard.tryFromSquare sq = Except.ok b ∧
        b.bits = 1 <<< sq.index ∧
        b.get sq = true ∧
        b.count = 1 ∧
        ∀ sq' : Square, sq'.valid → sq' ≠ sq → b.get sq' = false := by
  intro sq hv
  have hok : sq.is_ok = true := by
    unfold Square.is_ok
    exact decide_eq_true hv
  refine ⟨⟨1 <<< sq.index⟩, ?_, rfl, ?_, ?_, ?_⟩
  · unfold Bitboard.tryFromSquare
    rw [hok]
    simp
  · rw [Bitboard.get_eq_testBit]
    show (1 <<< sq.index).testBit sq.index = true
    rw [one_shiftLeft_eq_pow]
    exact Nat.testBit_two_pow_self
  · show popcount (1 <<< sq.index) = 1
    rw [one_shiftLeft_eq_pow]
    exact popcount_two_pow (Square.valid_index_lt hv)
  · intro sq' hv' hne
    rw [Bitboard.get_eq_testBit]
    show (1 <<< sq.index).testBit sq'.index = false
    rw [one_shiftLeft_eq_pow]
    exact Nat.testBit_two_pow_of_ne (fun h =>
      hne (Square.index_injective hv' hv h.symm))

/-- C5 witness: instance at the square x=2, y=3 (packed value 0x23). -/
theorem square_to_bitboard_infallible_witness :
    ∃ b : Bitboard, Bitboard.tryFromSquare ⟨0x23⟩ = Except.ok b ∧
      b.bits = 1 <<< (Square.mk 0x23).index ∧
      b.get ⟨0x23⟩ = true ∧
      b.count = 1 ∧
      ∀ sq' : Square, sq'.valid → sq' ≠ ⟨0x23⟩ → b.get sq' = false :=
  square_to_bitboard_infallible ⟨0x23⟩ (by decide)

/-- C8: for every 64-bit bitboard the population count equals the number
of squares whose membership test is true, `none()` holds exactly when
the count is 0, and `any()` exactly when the count is positive. -/
theorem bitboard_cardinality_laws :
    ∀ b : Bitboard, b.bits < 2 ^ 64 →
      b.count = allSquares.countP (fun sq => b.get sq) ∧
      (b.none = true ↔ b.count = 0) ∧
      (b.any = true ↔ 0 < b.count) := by
  intro b hb
  have hcount : b.count = (List.range 64).countP (fun i => b.bits.testBit i) :=
    popcount_eq_countP hb
  have hzero : b.count = 0 ↔ b.bits = 0 := popcount_eq_zero hb
  refine ⟨?_, ?_, ?_⟩
  · rw [countP_allSquares, hcount]
  · unfold Bitboard.none
    rw [beq_iff_eq]
    exact hzero.symm
  · unfold Bitboard.any
    rw [bne_iff_ne]
    rw [Nat.pos_iff_ne_zero]
    constructor
    · intro h hc
      exact h (hzero.mp hc)
    · intro h hb0
      exact h (hzero.mpr hb0)

/-- C8 witness: instance at raw bits 5 (squares a1 and c1 set). -/
theorem bitboard_cardinality_laws_witness :
    Bitboard.count ⟨5⟩ = allSquares.countP (fun sq => Bitboard.get ⟨5⟩ sq) ∧
    (Bitboard.none ⟨5⟩ = true ↔ Bitboard.count ⟨5⟩ = 0) ∧
    (Bitboard.any ⟨5⟩ = true ↔ 0 < Bitboard.count ⟨5⟩) :=
  bitboard_cardinality_laws ⟨5⟩ (by decide)

/-- C4: the bitboard-to-square conversion succeeds exactly when the
population count is 1, returning the square whose linear index is the
position of the single set bit; for any other count it fails with the
`notSingleton` kind; and a singleton bitboard built from a valid square
converts back to that very square. -/
theorem bitboard_singleton_extraction :
    (∀ b : Bitboard, b.bits < 2 ^ 64 →
      (b.count = 1 →
        ∃ sq, b.tryIntoSquare = Except.ok sq ∧
          sq.index = trailingZeros b.bits ∧ sq.valid) ∧
      (b.count ≠ 1 →
        b.tryIntoSquare = Except.error BitboardError.notSingleton)) ∧
    (∀ sq : Square, sq.valid → ∀ b : Bitboard,
      Bitboard.tryFromSquare sq = Except.ok b →
      b.tryIntoSquare = Except.ok sq) := by
  constructor
  · intro b hb
    constructor
    · intro h1
      obtain ⟨he, hlt⟩ := popcount_eq_one hb h1
      have htz : trailingZeros b.bits < 64 := hlt
      obtain ⟨hi, hv, _, _⟩ := squareOfIdx_facts (trailingZeros b.bits) htz
      refine ⟨squareOfIdx (trailingZeros b.bits), ?_, hi, hv⟩
      unfold Bitboard.tryIntoSquare
      rw [if_pos h1, from_index_eq_squareOfIdx (trailingZeros b.bits) htz]
    · intro h1
      unfold Bitboard.tryIntoSquare
      rw [if_neg h1]
  · intro sq hv b hb
    have hok : sq.is_ok = true := by
      unfold Square.is_ok
      exact decide_eq_true hv
    unfold Bitboard.tryFromSquare at hb
    rw [hok] at hb
    simp only [if_pos] at hb
    obtain rfl : Bitboard.mk (1 <<< sq.index) = b := Except.ok.inj hb
    have hidx : sq.index < 64 := Square.valid_index_lt hv
    have hbits : (1 : Nat) <<< sq.index = 2 ^ sq.index :=
      one_shiftLeft_eq_pow sq.index
    have hcount : Bitboard.count ⟨1 <<< sq.index⟩ = 1 := by
      show popcount (1 <<< sq.index) = 1
      rw [hbits]
      exact popcount_two_pow hidx
    have htz : trailingZeros (1 <<< sq.index) = sq.index := by
      rw [hbits]
      exact trailingZeros_two_pow hidx
    unfold Bitboard.tryIntoSquare
    rw [if_pos hcount]
    have hfi : Square.from_index (trailingZeros (1 <<< sq.index)) =
        Except.ok sq := by
      rw [htz]
      obtain ⟨v⟩ := sq
      exact from_index_index_of_valid v (Square.valid_val_lt hv) hv
    rw [hfi]

/-- C4 witness: bits 8 is the singleton of the square with linear
index 3; bits 9 has two members and is rejected. -/
theorem bitboard_singleton_extraction_witness :
    (∃ sq, Bitboard.tryIntoSquare ⟨8⟩ = Except.ok sq ∧
      sq.index = trailingZeros 8 ∧ sq.valid) ∧
    Bitboard.tryIntoSquare ⟨9⟩ = Except.error BitboardError.notSingleton ∧
    Bitboard.tryIntoSquare ⟨0⟩ = Except.error BitboardError.notSingleton :=
  ⟨(bitboard_singleton_extraction.1 ⟨8⟩ (by decide)).1 (by decide),
   (bitboard_singleton_extraction.1 ⟨9⟩ (by decide)).2 (by decide),
   (bitboard_singleton_extraction.1 ⟨0⟩ (by decide)).2 (by decide)⟩

theorem display_line_eq (b : Bitboard) (r : Nat) :
    (List.range 8).flatMap (fun c =>
      [if b.bits.testBit (8 * r + c) then '1' else '0',
       if (8 * r + c) % 8 == 7 then '\n' else ' ']) =
    ((List.range 7).flatMap (fun c =>
      [if b.bits.testBit (8 * r + c) then '1' else '0', ' '])) ++
    [if b.bits.testBit (8 * r + 7) then '1' else '0', '\n'] := by
  have e8 : List.range 8 = [0, 1, 2, 3, 4, 5, 6, 7] := rfl
  have e7 : List.range 7 = [0, 1, 2, 3, 4, 5, 6] := rfl
  rw [e8, e7]
  simp [Nat.mul_add_mod]

/-- C9: the display output of a bitboard is 8 newline-terminated lines;
line r holds the digits of the 8 consecutive bit positions 8r..8r+7 in
least-significant-bit-first order, a digit being '1' exactly when the
bit is set, digits separated by spaces within a line; in total the
output carries exactly 64 digit characters. -/
theorem bitboard_display_grid :
    ∀ b : Bitboard,
      b.displayChars =
        (List.range 8).flatMap (fun r =>
          ((List.range 7).flatMap (fun c =>
            [if b.bits.testBit (8 * r + c) then '1' else '0', ' '])) ++
          [if b.bits.testBit (8 * r + 7) then '1' else '0', '\n']) ∧
      b.displayChars.countP (fun ch => ch == '0' || ch == '1') = 64 := by
  intro b
  have hdc : Bitboard.displayChars b =
      [] ++ (List.range 64).flatMap (fun i =>
        [if b.bits &&& (1 <<< i) != 0 then '1' else '0',
         if i % 8 == 7 then '\n' else ' ']) :=
    foldl_push_pairs _ _ (List.range 64) []
  rw [List.nil_append] at hdc
  have hfe : (fun i : Nat =>
      [if b.bits &&& (1 <<< i) != 0 then '1' else '0',
       if i % 8 == 7 then '\n' else ' ']) =
      (fun i : Nat =>
      [if b.bits.testBit i then '1' else '0',
       if i % 8 == 7 then '\n' else ' ']) := by
    funext i
    rw [and_shift_bne]
  rw [hfe] at hdc
  have hsplit : List.range 64 =
      (List.range 8).flatMap (fun r => (List.range 8).map (fun c => 8 * r + c)) :=
    rfl
  constructor
  · rw [hdc, hsplit, List.flatMap_assoc]
    simp only [List.flatMap_map]
    simp only [display_line_eq b]
  · rw [hdc]
    rw [countP_flatMap_pairs (fun ch => ch == '0' || ch == '1')
      (fun i => if b.bits.testBit i then '1' else '0')
      (fun i => if i % 8 == 7 then '\n' else ' ')
      (fun i => by cases h : b.bits.testBit i <;> simp [h])
      (fun i => by cases h : (i % 8 == 7) <;> simp [h])
      (List.range 64)]
    exact List.length_range 64
